import Mathlib

/-!
Verification development for the "bee" daily word-puzzle repository.

Shallow embedding of the Rust sources:
- `src/words/src/lib.rs`          — letter/word bitmask codec
- `src/puzzle-config/src/lib.rs`  — `Word`, scoring, `PuzzleConfig`
- `src/server/src/puzzle_config.rs` — puzzle generator (`ConfigProvider::fetch`),
  timezone cache (`ConfigProvider::get_config`), `next_midnight`, `day_64`
- `src/frontend/src/main.rs`      — client-side guess validation (`submit` closure)

Modelling conventions:
- Rust `char` values are Lean `Char`; the generator only ever manipulates
  characters in the ASCII range `'a'..='z'` (plus `'{'` as an exclusive bound).
- Rust `i32`/`u32` masks are Lean `Nat`: every mask built by the code is an OR
  of `1 <<< k` with `k < 26`, so no sign or overflow behaviour is reachable.
- The randomness of `rand::rngs::StdRng` is abstracted as a stream of natural
  numbers: each `random_range`/`random_bool` call consumes one stream element
  and maps it into the requested range. Every outcome the real generator can
  produce corresponds to some stream, so universally quantified theorems cover
  all real executions, and a concrete stream exhibits a reachable execution.
- A `random_range` call on an empty range returns `none`, modelling the panic
  of `rand` on empty ranges.
-/

/-! ### Letter codec — `src/words/src/lib.rs` -/

/-- Constant `REFERENCE_ORD` from `words::letters`: the byte value of `'a'`. -/
def REFERENCE_ORD : Nat := 97

namespace letters

/-- Function `letters::bitmask`: `1 << (letter as u8 as i32 - REFERENCE_ORD)`.
The source value is an `i32`; for the lowercase letters the code feeds it,
the shift amount is `0..=25` and the result is the pure power of two
modelled here. -/
def bitmask (letter : Char) : Nat := 1 <<< (letter.toNat - REFERENCE_ORD)

/-- The `LETTERS` array from `words::letters`. -/
def LETTERS : List Char :=
  ['a', 'b', 'c', 'd', 'e', 'f', 'g', 'h', 'i', 'j', 'k', 'l', 'm',
   'n', 'o', 'p', 'q', 'r', 's', 't', 'u', 'v', 'w', 'x', 'y', 'z']

/-- Executable integer base-2 logarithm for the mask range of this program.
`Nat.log2` is defined by well-founded recursion and does not reduce inside
the kernel, so the model counts the powers of two not exceeding `bm`
instead; `ilog2_eq_log2` below proves this agrees with `Nat.log2` on every
positive mask below `2 ^ 26`, which covers all masks the program builds. -/
def ilog2 (bm : Nat) : Nat :=
  ((List.range 26).filter (fun k => 1 <<< k ≤ bm)).length - 1

/-- Function `letters::from_bitmask`: `LETTERS[bm.ilog2() as usize]`.
Out-of-range indexing (impossible for the single-bit masks the code passes)
is modelled with a default rather than the source's panic. -/
def from_bitmask (bm : Nat) : Char := LETTERS.getD (ilog2 bm) 'a'

end letters

/-- Function `words::vec_from_bitmask`: collect `from_bitmask` of every set bit of the
mask, in ascending bit order over bit offsets `0..26`. -/
def vec_from_bitmask (bm : Nat) : List Char :=
  (List.range 26).filterMap (fun off =>
    let mask := bm &&& (1 <<< off)
    if 0 < mask then some (letters.from_bitmask mask) else none)

/-! ### `Word` and scoring — `src/puzzle-config/src/lib.rs` -/

/-- Struct `puzzle_config::Word`. The Rust struct also carries a derived `chars`
set used only by `is_superset`; `Eq`/`Hash` are defined solely on the text,
so the model keeps the text and the pangram flag. -/
structure Word where
  word : String
  is_pangram : Bool
deriving DecidableEq, Repr

/-- Constructor `Word::new` (the `chars` cache is derived data, omitted from the model). -/
def Word.new (w : String) (p : Bool) : Word := ⟨w, p⟩

/-- Method `Word::score`: Rust `String::len` is the UTF-8 byte length, modelled by
`String.utf8ByteSize`. -/
def Word.score (w : Word) : Nat :=
  if w.word.utf8ByteSize = 4 then 1
  else w.word.utf8ByteSize + (if w.is_pangram then 7 else 0)

/-! ### Client-side validation — the `submit` closure in
`src/frontend/src/main.rs` (lines 104-142) -/

/-- The five validation outcomes of the frontend. -/
inductive ValidationError
  | MissingRequiredLetter
  | TooShort
  | BadLetters
  | NotInList
  | AlreadyGuessed
deriving DecidableEq, Repr

/-- The `submit` event handler's validation cascade, as a pure function.
`none` models the accepted case (score update and submission push).
`word.len() < 4` is a byte-length test; `submitted.contains`,
`word.contains(char)`, `word.chars().any`, and the `HashSet<Word>`
membership (equality on text only) are modelled directly. -/
def submit (word : String) (submitted : List String) (required_letter : Char)
    (other_letters : List Char) (valid_words : List Word) : Option ValidationError :=
  if word.utf8ByteSize < 4 then some .TooShort
  else if submitted.contains word then some .AlreadyGuessed
  else if ¬ word.contains required_letter then some .MissingRequiredLetter
  else if word.data.any (fun c => ¬ (required_letter = c ∨ other_letters.contains c)) then
    some .BadLetters
  else if ¬ valid_words.any (fun w => w.word = word) then some .NotInList
  else none

/-! ### Puzzle generator — `ConfigProvider::fetch` in
`src/server/src/puzzle_config.rs` -/

/-- The `WordRow` rows returned by the SQL query. -/
structure WordRow where
  word : String
  is_pangram : Bool
deriving DecidableEq, Repr

/-- The `words` table, abstracted as a list of `(word, letter_mask)` rows
(the build pipeline stores `words::bitmask(word)` next to each word). -/
abbrev Corpus := List (String × Nat)

/-- The SQL query of `fetch` with bind parameter `param`:
`select word, letter_mask & $1 = $1 as is_pangram from words
 where letter_mask & $1 = letter_mask`. -/
def sql_words_query (corpus : Corpus) (param : Nat) : List WordRow :=
  (corpus.filter (fun r => r.2 &&& param == r.2)).map
    (fun r => ⟨r.1, r.2 &&& param == param⟩)

/-- One `HashSet<Word>` insertion: `collect` keeps the first element of an
equality class (`Word` equality is on text only). -/
def insertWord (ws : List Word) (w : Word) : List Word :=
  if ws.any (fun v => v.word = w.word) then ws else ws ++ [w]

/-- Model of `words.into_iter().map(|w| Word::new(..)).collect::<HashSet<_>>()`,
modelled as a duplicate-free list in row order. -/
def collectWords (rows : List WordRow) : List Word :=
  rows.foldl (fun acc r => insertWord acc (Word.new r.word r.is_pangram)) []

/-- One score-bucket threshold: the source computes
`(max_score as f32 * frac).trunc() as u32` with
`frac ∈ {0.0, 0.02, ..., 0.7}`; the model truncates the exact product
`max_score * pct / 100`. The two agree on the concrete word sets evaluated
in this file (checked by hand against IEEE `f32` rounding). -/
def bucket (max_score : Nat) (pct : Nat) : Nat := max_score * pct / 100

/-- The nine score buckets computed by `fetch` (lines 100-110). -/
def score_buckets_of (max_score : Nat) : List (String × Nat) :=
  [("Beginner", bucket max_score 0),
   ("Good Start", bucket max_score 2),
   ("Moving Up", bucket max_score 5),
   ("Good", bucket max_score 8),
   ("Solid", bucket max_score 15),
   ("Nice", bucket max_score 25),
   ("Great", bucket max_score 40),
   ("Amazing", bucket max_score 50),
   ("Genius", bucket max_score 70)]

/-- Struct `puzzle_config::PuzzleConfig`. `Letter` is a newtype over `char`,
modelled as plain `Char`; `score_buckets` is a fixed 9-element array,
modelled as a list; `valid_words` is a `HashSet`, modelled as a
duplicate-free list. -/
structure PuzzleConfig where
  score_buckets : List (String × Nat)
  required_letter : Char
  other_letters : List Char
  valid_words : List Word
deriving DecidableEq, Repr

/-- Assembly of the returned `PuzzleConfig` (lines 98-116 of `fetch`). -/
def mkPuzzleConfig (rows : List WordRow) (required_mask letter_mask : Nat) : PuzzleConfig :=
  let valid_words := collectWords rows
  let max_score := (valid_words.map Word.score).sum
  { score_buckets := score_buckets_of max_score
    required_letter := letters.from_bitmask required_mask
    other_letters := vec_from_bitmask letter_mask
    valid_words := valid_words }

/-- Abstract random source: each `random_range` / `random_bool` call consumes
the head of the stream (`0` once the stream is exhausted). -/
abbrev Rng := List Nat

/-- Consume one stream element. -/
def rngNext (s : Rng) : Nat × Rng := (s.headD 0, s.tail)

/-- Model of `rng.random_bool(0.5)`. -/
def random_bool (s : Rng) : Bool × Rng :=
  let (n, s1) := rngNext s
  (n % 2 == 0, s1)

/-- Model of `rng.random_range(lo..hi)` on characters, `hi` exclusive: picks some
element of the range, or `none` (the `rand` panic) when the range is empty. -/
def random_range_lt (lo hi : Char) (s : Rng) : Option (Char × Rng) :=
  if lo.toNat < hi.toNat then
    let (n, s1) := rngNext s
    some (Char.ofNat (lo.toNat + n % (hi.toNat - lo.toNat)), s1)
  else none

/-- Model of `rng.random_range(lo..=hi)`, `hi` inclusive. -/
def random_range_le (lo hi : Char) (s : Rng) : Option (Char × Rng) :=
  random_range_lt lo (Char.ofNat (hi.toNat + 1)) s

/-- One companion-letter draw (lines 77-81 of `fetch`): a coin flip picks the
range strictly below or strictly above the required character. -/
def draw_other (required_char : Char) (s : Rng) : Option (Char × Rng) :=
  let (b, s1) := random_bool s
  if b then random_range_lt 'a' required_char s1
  else random_range_le (Char.ofNat (required_char.toNat + 1)) 'z' s1

/-- The `for _ in 0..6` loop of `fetch`: OR each drawn letter's bitmask into
`letter_mask`. `none` models the `random_range` panic on an empty range. -/
def draw_others (required_char : Char) : Nat → Nat → Rng → Option (Nat × Rng)
  | 0, letter_mask, s => some (letter_mask, s)
  | k+1, letter_mask, s =>
    match draw_other required_char s with
    | none => none
    | some (l, s1) => draw_others required_char k (letter_mask ||| letters.bitmask l) s1

/-- Possible outcomes of `fetch`: a panic inside `random_range`, a returned
config, or exhaustion of the fuel bounding the unbounded `loop`. -/
inductive FetchOutcome
  | panicked
  | ok (config : PuzzleConfig)
  | fuelOut
deriving DecidableEq, Repr

/-- The `loop` of `fetch` (lines 73-118). `letter_mask` is deliberately NOT
reset between iterations, exactly as in the source (`let mut letter_mask`
sits outside the `loop`). `fuel` bounds the number of iterations so the
model is total; `fuelOut` marks runs that would keep looping. -/
def fetch_loop (corpus : Corpus) : Nat → Nat → Rng → FetchOutcome
  | 0, _, _ => .fuelOut
  | fuel+1, letter_mask, s =>
    match random_range_le 'a' 'z' s with
    | none => .panicked
    | some (required_char, s1) =>
      let required_mask := letters.bitmask required_char
      match draw_others required_char 6 letter_mask s1 with
      | none => .panicked
      | some (letter_mask1, s2) =>
        let words := sql_words_query corpus (letter_mask1 ||| required_mask)
        if 0 < words.length then .ok (mkPuzzleConfig words required_mask letter_mask1)
        else fetch_loop corpus fuel letter_mask1 s2

/-- Function `ConfigProvider::fetch`, with the database connection already acquired:
`letter_mask` starts at `0`. -/
def fetch (corpus : Corpus) (s : Rng) (fuel : Nat) : FetchOutcome :=
  fetch_loop corpus fuel 0 s

/-! ### Timezone cache — `ConfigProvider::get_config`, `next_midnight`,
`day_64` in `src/server/src/puzzle_config.rs` -/

/-- A chrono `DateTime<FixedOffset>`: the UTC instant in nanoseconds since
the epoch plus the fixed offset in seconds east of UTC. chrono compares
`DateTime` values by instant alone, regardless of offset. -/
structure DT where
  instant : Int
  offset : Int
deriving DecidableEq, Repr

/-- Nanoseconds in 24 hours (86400 seconds times 10^9). -/
def nsPerDay : Int := 86400000000000

/-- Local-clock nanoseconds of a `DT` (what the `with_hour`/`with_minute`/...
field setters operate on). -/
def DT.localNs (t : DT) : Int := t.instant + t.offset * 1000000000

/-- Function `next_midnight` (lines 144-154): add `Duration::hours(24)`, then zero the
local hour, minute, second and nanosecond fields, i.e. truncate the local
clock to the start of its calendar day. -/
def next_midnight (now : DT) : DT :=
  let bumped : Int := now.localNs + nsPerDay
  let truncated : Int := bumped - bumped % nsPerDay
  { instant := truncated - now.offset * 1000000000, offset := now.offset }

/-- A cache entry (`CachedConfig`). -/
structure CachedConfig where
  config : PuzzleConfig
  ttl : DT
deriving DecidableEq, Repr

/-- Variant `Error::DbError` with its cause rendered as a string. -/
inductive Error
  | DbError (cause : String)
deriving DecidableEq, Repr

/-- The `DashMap<FixedOffset, CachedConfig>` cache, keyed by the offset in
seconds, modelled as an association list. -/
abbrev Cache := List (Int × CachedConfig)

/-- Model of `self.cache.get(tz)`. -/
def cacheGet (cache : Cache) (tz : Int) : Option CachedConfig :=
  (cache.find? (fun e => e.1 == tz)).map (fun e => e.2)

/-- Model of `self.cache.entry(tz).insert_entry(v)`: replace the entry for `tz` or add
a fresh one. -/
def cacheInsert (cache : Cache) (tz : Int) (v : CachedConfig) : Cache :=
  if cache.any (fun e => e.1 == tz) then
    cache.map (fun e => if e.1 == tz then (tz, v) else e)
  else (tz, v) :: cache

/-- Function `ConfigProvider::get_config` (lines 49-67), as a pure state transformer.
`nowUtcNs` is `Utc::now()` in nanoseconds; `now = Utc::now().with_timezone(tz)`
is the same instant carrying the offset. The awaited result of
`self.fetch()` is passed in as `fetchResult`; it is consulted only on a miss
or an expired entry, mirroring the early return on a fresh hit. Returns the
response together with the cache state after the call. -/
def get_config (cache : Cache) (tz : Int) (nowUtcNs : Int)
    (fetchResult : Except Error PuzzleConfig) : Except Error PuzzleConfig × Cache :=
  let now : DT := { instant := nowUtcNs, offset := tz }
  match cacheGet cache tz with
  | some cached =>
    if now.instant ≤ cached.ttl.instant then (.ok cached.config, cache)
    else
      match fetchResult with
      | .error e => (.error e, cache)
      | .ok config =>
        (.ok config, cacheInsert cache tz ⟨config, next_midnight now⟩)
  | none =>
    match fetchResult with
    | .error e => (.error e, cache)
    | .ok config =>
      (.ok config, cacheInsert cache tz ⟨config, next_midnight now⟩)

/-- Function `day_64` (lines 157-159): `Utc::now().timestamp() as u64` — the Unix
timestamp in SECONDS, wrapped to `u64`. `nowSec` is `Utc::now().timestamp()`. -/
def day_64 (nowSec : Int) : Nat := (nowSec % (2 ^ 64)).toNat

/-- The UTC epoch day number of a Unix timestamp in seconds — what the spec
says the generator seed should be. -/
def utc_epoch_day (nowSec : Int) : Int := nowSec / 86400

/-! ### Concrete generator runs used by the counterexamples and witnesses -/

/-- Random stream drawing required letter `'d'` and companions
`e, f, g, h, i, j` (six distinct letters, all above `'d'`). -/
def streamDistinct : Rng := [3, 1, 0, 1, 1, 1, 2, 1, 3, 1, 4, 1, 5]

/-- Random stream drawing required letter `'d'` and companions
`e, e, f, g, h, i` — the letter `'e'` is drawn twice. -/
def streamRepeat : Rng := [3, 1, 0, 1, 0, 1, 1, 1, 2, 1, 3, 1, 4]

/-- A corpus holding the single word `"edge"` (letters `d, e, g`, mask 88):
a subset of `{d..j}` that is not a pangram for it. -/
def corpusEdge : Corpus := [("edge", 88)]

/-- A corpus holding the single word `"defghij"` (mask 1016): a pangram for
the letter set `{d..j}`. -/
def corpusPangram : Corpus := [("defghij", 1016)]

/-- A corpus holding the single word `"hedge"` (letters `d, e, g, h`,
mask 216). -/
def corpusHedge : Corpus := [("hedge", 216)]

/-- The config generated from `corpusEdge` with `streamDistinct`. -/
def configEdge : PuzzleConfig :=
  ⟨score_buckets_of 1, 'd', ['e', 'f', 'g', 'h', 'i', 'j'], [⟨"edge", false⟩]⟩

/-- The config generated from `corpusPangram` with `streamDistinct`. -/
def configPangram : PuzzleConfig :=
  ⟨score_buckets_of 14, 'd', ['e', 'f', 'g', 'h', 'i', 'j'], [⟨"defghij", true⟩]⟩

/-- The config generated from `corpusHedge` with `streamRepeat`: only five
distinct companion letters survive the repeated draw of `'e'`. -/
def configHedge : PuzzleConfig :=
  ⟨score_buckets_of 5, 'd', ['e', 'f', 'g', 'h', 'i'], [⟨"hedge", false⟩]⟩

/-- Witness config for the cache theorems. -/
def configTiny : PuzzleConfig := ⟨score_buckets_of 0, 'a', [], []⟩

/-- A cache holding one entry for offset 0 with `ttl` instant 5. -/
def cacheTiny : Cache := [(0, ⟨configTiny, ⟨5, 0⟩⟩)]

/-! ### Helper lemmas -/

lemma letters.filter_le_length : ∀ L < 26,
    ((List.range 26).filter (fun k => decide (k ≤ L))).length = L + 1 := by decide

/-- The executable `letters.ilog2` agrees with `Nat.log2` on the whole range
of masks the program manipulates. -/
lemma letters.ilog2_eq_log2 (bm : Nat) (h0 : 0 < bm) (h26 : bm < 2 ^ 26) :
    letters.ilog2 bm = Nat.log2 bm := by
  have hlog : Nat.log2 bm < 26 := (Nat.log2_lt (Nat.pos_iff_ne_zero.mp h0)).mpr h26
  have hcongr : ((List.range 26).filter (fun k => 1 <<< k ≤ bm))
      = ((List.range 26).filter (fun k => decide (k ≤ Nat.log2 bm))) := by
    apply List.filter_congr
    intro k _
    have : (1 <<< k ≤ bm) ↔ (k ≤ Nat.log2 bm) := by
      rw [Nat.one_shiftLeft, Nat.log2_eq_log_two]
      exact Nat.pow_le_iff_le_log Nat.one_lt_two (Nat.pos_iff_ne_zero.mp h0)
    simp [this]
  unfold letters.ilog2
  rw [hcongr, letters.filter_le_length (Nat.log2 bm) hlog]
  omega


lemma char_ofNat_toNat_of_le (v : Nat) (h1 : 97 ≤ v) (h2 : v < 124) :
    (Char.ofNat v).toNat = v := by
  revert h1
  revert v
  decide

lemma char_bounds_of_le {c : Char} (h1 : 'a' ≤ c) (h2 : c ≤ 'z') :
    97 ≤ c.toNat ∧ c.toNat ≤ 122 :=
  ⟨Char.le_def.mp h1, Char.le_def.mp h2⟩

lemma from_bitmask_bitmask_of (t : Nat) (h1 : 97 ≤ t) (h2 : t < 123) :
    letters.from_bitmask (letters.bitmask (Char.ofNat t)) = Char.ofNat t := by
  revert h1
  revert t
  decide

/-! ### C2: the generator seed -/

/-- C2: the claim says the generator RNG is seeded from the UTC epoch day
number, so that two runs within the same UTC day use the same seed. The
code's `day_64` returns `Utc::now().timestamp()` — whole seconds — so the
instants 1000 s and 2000 s, both inside UTC epoch day 0, produce different
seeds. This refutes the claimed mechanism (the program's seed is not the
epoch day number). -/
theorem day_64_is_seconds_not_epoch_day :
    day_64 1000 ≠ day_64 2000
  ∧ utc_epoch_day 1000 = utc_epoch_day 2000
  ∧ day_64 1000 = 1000 ∧ day_64 2000 = 2000 := by decide

/-! ### C7: word scoring -/

/-- C7: `Word::score` returns 1 for text of length 4 (bytes), otherwise the
length plus 7 if the word is a pangram; concretely a 4-letter non-pangram
scores 1, a 7-letter pangram scores 14, an 8-letter non-pangram scores 8. -/
theorem word_score_spec :
    (∀ w : Word, w.score =
      if w.word.utf8ByteSize = 4 then 1
      else w.word.utf8ByteSize + (if w.is_pangram then 7 else 0))
  ∧ (Word.new "ball" false).score = 1
  ∧ (Word.new "defghij" true).score = 14
  ∧ (Word.new "absolute" false).score = 8 :=
  ⟨fun _ => rfl, by decide, by decide, by decide⟩

/-! ### C8: letter mask round-trip -/

/-- C8: for every lowercase Latin letter `c`, encoding it to its single-bit
mask and decoding back yields `c` again. -/
theorem from_bitmask_bitmask_roundtrip (c : Char) (h1 : 'a' ≤ c) (h2 : c ≤ 'z') :
    letters.from_bitmask (letters.bitmask c) = c := by
  obtain ⟨hlo, hhi⟩ := char_bounds_of_le h1 h2
  have hc : Char.ofNat c.toNat = c := Char.ofNat_toNat c
  calc letters.from_bitmask (letters.bitmask c)
      = letters.from_bitmask (letters.bitmask (Char.ofNat c.toNat)) := by rw [hc]
    _ = Char.ofNat c.toNat := from_bitmask_bitmask_of c.toNat hlo (by omega)
    _ = c := hc

/-- Witness for C8 at the concrete letter `'c'`. -/
theorem from_bitmask_bitmask_roundtrip_witness :
    ('a' ≤ 'c' ∧ 'c' ≤ 'z') ∧ letters.from_bitmask (letters.bitmask 'c') = 'c' :=
  ⟨by decide, from_bitmask_bitmask_roundtrip 'c' (by decide) (by decide)⟩

/-! ### C9: reachable panic in the companion-letter draw -/

/-- C9: `fetch` can panic. If the first `random_range('a'..='z')` draw
returns `'a'` (stream head `0`) and the following coin flip selects the
below-required branch (next stream element `0`, i.e. `random_bool` true),
the code calls `random_range('a'..'a')` on an empty range, which panics;
symmetrically, required letter `'z'` (stream head `25`) with the
above-required branch (next element `1`) calls
`random_range('{'..='z')` on an empty range. This holds for every corpus,
every remaining stream, and every loop bound. -/
theorem fetch_can_panic :
    ∀ (corpus : Corpus) (fuel : Nat) (rest : Rng),
      random_range_le 'a' 'z' (0 :: 0 :: rest) = some ('a', 0 :: rest)
    ∧ random_bool (0 :: rest) = (true, rest)
    ∧ random_range_lt 'a' 'a' rest = none
    ∧ fetch corpus (0 :: 0 :: rest) (fuel + 1) = .panicked
    ∧ random_range_le 'a' 'z' (25 :: 1 :: rest) = some ('z', 1 :: rest)
    ∧ random_bool (1 :: rest) = (false, rest)
    ∧ random_range_le (Char.ofNat 123) 'z' rest = none
    ∧ fetch corpus (25 :: 1 :: rest) (fuel + 1) = .panicked :=
  fun _ _ _ => ⟨rfl, rfl, rfl, rfl, rfl, rfl, rfl, rfl⟩

/-! ### C5: validation order -/

/-- C5: the frontend validation cascade checks, in this exact order:
`TooShort`, `AlreadyGuessed`, `MissingRequiredLetter`, `BadLetters`,
`NotInList`, with the first failing check deciding the outcome. Each
outcome is therefore equivalent to "its own check fails and every earlier
check passes"; in particular a candidate that is both shorter than 4 bytes
and already submitted reports `TooShort`, not `AlreadyGuessed` (final
conjunct). -/
theorem submit_check_order :
    (∀ (word : String) (submitted : List String) (req : Char)
       (others : List Char) (valids : List Word),
      (submit word submitted req others valids = some .TooShort
        ↔ word.utf8ByteSize < 4)
    ∧ (submit word submitted req others valids = some .AlreadyGuessed
        ↔ ¬ word.utf8ByteSize < 4 ∧ submitted.contains word = true)
    ∧ (submit word submitted req others valids = some .MissingRequiredLetter
        ↔ ¬ word.utf8ByteSize < 4 ∧ submitted.contains word = false
          ∧ word.contains req = false)
    ∧ (submit word submitted req others valids = some .BadLetters
        ↔ ¬ word.utf8ByteSize < 4 ∧ submitted.contains word = false
          ∧ word.contains req = true
          ∧ word.data.any (fun c => ¬ (req = c ∨ others.contains c)) = true)
    ∧ (submit word submitted req others valids = some .NotInList
        ↔ ¬ word.utf8ByteSize < 4 ∧ submitted.contains word = false
          ∧ word.contains req = true
          ∧ word.data.any (fun c => ¬ (req = c ∨ others.contains c)) = false
          ∧ valids.any (fun w => w.word = word) = false)
    ∧ (submit word submitted req others valids = none
        ↔ ¬ word.utf8ByteSize < 4 ∧ submitted.contains word = false
          ∧ word.contains req = true
          ∧ word.data.any (fun c => ¬ (req = c ∨ others.contains c)) = false
          ∧ valids.any (fun w => w.word = word) = true))
  ∧ submit "abc" ["abc"] 'a' [] [] = some .TooShort := by
  constructor
  · intro word submitted req others valids
    unfold submit
    split_ifs with h1 h2 h3 h4 h5 <;> simp_all
  · decide

/-! ### C6: cache hit and publication -/

/-- C6: on a hit whose `ttl` has not expired (`cached.ttl >= now`),
`get_config` returns the cached config without consulting the generator
(the result is the same for every `fetchResult`) and leaves the cache
unchanged; otherwise it returns the freshly generated config and publishes
an entry whose expiry is `next_midnight now`; and `next_midnight` is
exactly "`now` advanced 24 hours, then the local clock truncated to
hour = 0, minute = 0, second = 0, nanosecond = 0" — a local-midnight
instant within the next 24 hours. -/
theorem get_config_cache_spec :
    (∀ (cache : Cache) (tz nowNs : Int) (f : Except Error PuzzleConfig)
       (cached : CachedConfig),
      cacheGet cache tz = some cached → nowNs ≤ cached.ttl.instant →
      get_config cache tz nowNs f = (.ok cached.config, cache))
  ∧ (∀ (cache : Cache) (tz nowNs : Int) (config : PuzzleConfig),
      (∀ cached, cacheGet cache tz = some cached → cached.ttl.instant < nowNs) →
      get_config cache tz nowNs (.ok config)
        = (.ok config, cacheInsert cache tz ⟨config, next_midnight ⟨nowNs, tz⟩⟩))
  ∧ (∀ now : DT,
      (next_midnight now).offset = now.offset
    ∧ (next_midnight now).localNs
        = now.localNs + nsPerDay - (now.localNs + nsPerDay) % nsPerDay
    ∧ (next_midnight now).localNs % nsPerDay = 0
    ∧ now.localNs < (next_midnight now).localNs
    ∧ (next_midnight now).localNs ≤ now.localNs + nsPerDay) := by
  refine ⟨?_, ?_, ?_⟩
  · intro cache tz nowNs f cached hget httl
    unfold get_config
    rw [hget]
    simp [httl]
  · intro cache tz nowNs config hexp
    unfold get_config
    cases hget : cacheGet cache tz with
    | none => simp
    | some cached =>
      have := hexp cached hget
      simp [show ¬ nowNs ≤ cached.ttl.instant by omega]
  · intro now
    refine ⟨rfl, ?_, ?_, ?_, ?_⟩ <;>
      simp only [next_midnight, DT.localNs, nsPerDay] <;> omega

/-- Witness for C6: a fresh hit at instant 3 returns the cached config and
leaves the cache unchanged; a miss on the empty cache at instant 3
publishes an entry expiring at the next local midnight. -/
theorem get_config_cache_spec_witness :
    get_config cacheTiny 0 3 (.error (.DbError "down")) = (.ok configTiny, cacheTiny)
  ∧ get_config [] 0 3 (.ok configTiny)
      = (.ok configTiny, cacheInsert [] 0 ⟨configTiny, next_midnight ⟨3, 0⟩⟩) :=
  ⟨get_config_cache_spec.1 cacheTiny 0 3 _ ⟨configTiny, ⟨5, 0⟩⟩ rfl (by decide),
   get_config_cache_spec.2.1 [] 0 3 configTiny (by intro cached h; simp [cacheGet] at h)⟩

/-! ### C10: a failed generation leaves the cache untouched -/

/-- C10: when generation actually runs (no fresh cache entry for the
offset) and the database query fails, `get_config` surfaces the error and
returns with the cache exactly as it was: no entry inserted, removed or
replaced, so any expired entry for the offset survives and a later call
starts from the same state. -/
theorem get_config_error_preserves_cache :
    ∀ (cache : Cache) (tz nowNs : Int) (e : Error),
      (∀ cached, cacheGet cache tz = some cached → cached.ttl.instant < nowNs) →
      get_config cache tz nowNs (.error e) = (.error e, cache) := by
  intro cache tz nowNs e hexp
  unfold get_config
  cases hget : cacheGet cache tz with
  | none => simp
  | some cached =>
    have := hexp cached hget
    simp [show ¬ nowNs ≤ cached.ttl.instant by omega]

/-- Witness for C10: the entry for offset 0 expired at instant 5; a failed
generation at instant 7 returns the error and the expired entry is still
there. -/
theorem get_config_error_preserves_cache_witness :
    get_config cacheTiny 0 7 (.error (.DbError "down"))
      = (.error (.DbError "down"), cacheTiny) :=
  get_config_error_preserves_cache cacheTiny 0 7 (.DbError "down")
    (by
      intro cached h
      have h2 : (⟨configTiny, ⟨5, 0⟩⟩ : CachedConfig) = cached := Option.some.inj h
      rw [← h2]
      decide)

/-! ### Anatomy of a successful `fetch` run -/

/-- Every config returned by the `fetch` loop is assembled by
`mkPuzzleConfig` from a nonempty query result. -/
lemma fetch_loop_ok_shape (corpus : Corpus) :
    ∀ (fuel letter_mask : Nat) (s : Rng) (c : PuzzleConfig),
      fetch_loop corpus fuel letter_mask s = .ok c →
      ∃ rows rm lm, rows = sql_words_query corpus (lm ||| rm)
        ∧ 0 < rows.length ∧ c = mkPuzzleConfig rows rm lm := by
  intro fuel
  induction fuel with
  | zero => intro mask s c h; exact absurd h (by simp [fetch_loop])
  | succ n ih =>
    intro mask s c h
    unfold fetch_loop at h
    cases hr : random_range_le 'a' 'z' s with
    | none => rw [hr] at h; exact absurd h (by simp)
    | some rs =>
      obtain ⟨req, s1⟩ := rs
      rw [hr] at h
      dsimp only at h
      cases hd : draw_others req 6 mask s1 with
      | none => rw [hd] at h; exact absurd h (by simp)
      | some ms =>
        obtain ⟨lm1, s2⟩ := ms
        rw [hd] at h
        dsimp only at h
        split at h
        · exact ⟨_, letters.bitmask req, lm1, rfl, by assumption,
            (FetchOutcome.ok.inj h).symm⟩
        · exact ih _ _ _ h

/-- Lemma: `insertWord` never shrinks the accumulator. -/
lemma insertWord_length_le (ws : List Word) (w : Word) :
    ws.length ≤ (insertWord ws w).length := by
  unfold insertWord
  split <;> simp

/-- The fold building `collectWords` never shrinks the accumulator. -/
lemma collect_fold_length_le (rows : List WordRow) :
    ∀ acc : List Word,
      acc.length ≤ (rows.foldl
        (fun acc r => insertWord acc (Word.new r.word r.is_pangram)) acc).length := by
  induction rows with
  | nil => intro acc; simp
  | cons r rest ih =>
    intro acc
    calc acc.length ≤ (insertWord acc (Word.new r.word r.is_pangram)).length :=
          insertWord_length_le acc _
      _ ≤ _ := ih _

/-- A nonempty row list collects into a nonempty word set. -/
lemma collectWords_ne_nil (rows : List WordRow) (h : 0 < rows.length) :
    collectWords rows ≠ [] := by
  cases rows with
  | nil => simp at h
  | cons r rest =>
    have h1 : insertWord [] (Word.new r.word r.is_pangram)
        = [Word.new r.word r.is_pangram] := by simp [insertWord]
    have h2 := collect_fold_length_le rest [Word.new r.word r.is_pangram]
    intro hnil
    unfold collectWords at hnil
    rw [List.foldl_cons, h1] at hnil
    rw [hnil] at h2
    simp at h2

/-! ### C1: pangram guarantee -/

/-- C1 counterexample: with corpus `corpusEdge` and stream `streamDistinct`,
`fetch` accepts the candidate set `{"edge"}` (it is nonempty) and returns a
config in which no valid word is a pangram — the loop only restarts when
the candidate set is EMPTY (`words.len() > 0`), not when it lacks a
pangram. -/
theorem fetch_returns_config_without_pangram :
    fetch corpusEdge streamDistinct 1 = .ok configEdge
  ∧ configEdge.valid_words.any (fun w => w.is_pangram) = false
  ∧ configEdge.valid_words ≠ [] := by decide

/-- C1 amended: every config returned by the generator has a nonempty
`valid_words` set (empty candidate sets are discarded and the draw
restarted), but `valid_words` need not contain a pangram. -/
theorem fetch_ok_valid_words_nonempty :
    ∀ (corpus : Corpus) (s : Rng) (fuel : Nat) (c : PuzzleConfig),
      fetch corpus s fuel = .ok c → c.valid_words ≠ [] := by
  intro corpus s fuel c h
  obtain ⟨rows, rm, lm, _, hlen, hc⟩ := fetch_loop_ok_shape corpus fuel 0 s c h
  rw [hc]
  show collectWords rows ≠ []
  exact collectWords_ne_nil rows hlen

/-- Witness for the amended C1 at a concrete accepted draw. -/
theorem fetch_ok_valid_words_nonempty_witness :
    fetch corpusHedge streamRepeat 1 = .ok configHedge
  ∧ configHedge.valid_words ≠ [] :=
  ⟨by decide, fetch_ok_valid_words_nonempty corpusHedge streamRepeat 1 configHedge (by decide)⟩

/-! ### C3: score buckets -/

/-- Structure of the nine buckets computed from a maximum score. -/
lemma score_buckets_of_spec (m : Nat) :
    (score_buckets_of m).length = 9
  ∧ ((score_buckets_of m).map Prod.snd).Chain' (· ≤ ·)
  ∧ ((score_buckets_of m).map Prod.snd).getLast? = some (m * 70 / 100) := by
  refine ⟨rfl, ?_, rfl⟩
  simp only [score_buckets_of, bucket, List.map_cons, List.map_nil, List.chain'_cons,
    List.chain'_singleton, and_true]
  refine ⟨?_, ?_, ?_, ?_, ?_, ?_, ?_, ?_⟩ <;> omega

/-- C3 counterexample: with corpus `corpusPangram` and stream
`streamDistinct`, `fetch` returns a config whose only valid word is the
7-letter pangram `"defghij"` (score 14). The buckets are
`[0, 0, 0, 1, 2, 3, 5, 7, 9]`: there are 9 of them, but the thresholds are
NOT strictly increasing (the first three are all 0) and the last threshold
is 9 = trunc(14 * 0.7), not the maximum achievable score 14. -/
theorem score_buckets_counterexample :
    fetch corpusPangram streamDistinct 1 = .ok configPangram
  ∧ (configPangram.valid_words.map Word.score).sum = 14
  ∧ configPangram.score_buckets.map Prod.snd = [0, 0, 0, 1, 2, 3, 5, 7, 9]
  ∧ ¬ (configPangram.score_buckets.map Prod.snd).Chain' (· < ·)
  ∧ (configPangram.score_buckets.map Prod.snd).getLast?
      ≠ some ((configPangram.valid_words.map Word.score).sum) := by
  refine ⟨by decide, by decide, by decide, ?_, by decide⟩
  rw [show configPangram.score_buckets.map Prod.snd = [0, 0, 0, 1, 2, 3, 5, 7, 9] by decide]
  simp [List.chain'_cons]

/-- C3 amended: every generated config has exactly 9 score buckets with
non-decreasing (not strictly increasing) thresholds, and the last threshold
is the truncation of 70% of the total score of `valid_words` — not 100%. -/
theorem score_buckets_structure :
    ∀ (corpus : Corpus) (s : Rng) (fuel : Nat) (c : PuzzleConfig),
      fetch corpus s fuel = .ok c →
      c.score_buckets.length = 9
    ∧ (c.score_buckets.map Prod.snd).Chain' (· ≤ ·)
    ∧ (c.score_buckets.map Prod.snd).getLast?
        = some ((c.valid_words.map Word.score).sum * 70 / 100) := by
  intro corpus s fuel c h
  obtain ⟨rows, rm, lm, _, _, hc⟩ := fetch_loop_ok_shape corpus fuel 0 s c h
  rw [hc]
  show (score_buckets_of ((collectWords rows).map Word.score).sum).length = 9 ∧ _
  exact score_buckets_of_spec _

/-- Witness for the amended C3 at a concrete accepted draw. -/
theorem score_buckets_structure_witness :
    fetch corpusPangram streamDistinct 1 = .ok configPangram
  ∧ (configPangram.score_buckets.length = 9
    ∧ (configPangram.score_buckets.map Prod.snd).Chain' (· ≤ ·)
    ∧ (configPangram.score_buckets.map Prod.snd).getLast?
        = some ((configPangram.valid_words.map Word.score).sum * 70 / 100)) :=
  ⟨by decide, score_buckets_structure corpusPangram streamDistinct 1 configPangram (by decide)⟩

/-! ### Bit-level structure of `vec_from_bitmask` -/

/-- Decoding a single-bit mask below bit 26. -/
lemma from_bitmask_two_pow : ∀ off < 26,
    letters.from_bitmask (2 ^ off) = Char.ofNat (97 + off) := by decide

/-- Decomposition: `vec_from_bitmask` lists `Char.ofNat (97 + off)` for exactly the set
bits `off < 26` of the mask, in ascending order. -/
lemma vec_from_bitmask_eq (bm : Nat) :
    vec_from_bitmask bm
      = ((List.range 26).filter (fun off => bm.testBit off)).map
          (fun off => Char.ofNat (97 + off)) := by
  unfold vec_from_bitmask
  have main : ∀ l : List Nat, (∀ x ∈ l, x < 26) →
      (l.filterMap (fun off =>
        let mask := bm &&& (1 <<< off)
        if 0 < mask then some (letters.from_bitmask mask) else none))
      = (l.filter (fun off => bm.testBit off)).map (fun off => Char.ofNat (97 + off)) := by
    intro l
    induction l with
    | nil => intro; rfl
    | cons a t ih =>
      intro hmem
      have ha : a < 26 := hmem a (List.mem_cons_self a t)
      have ht : ∀ x ∈ t, x < 26 := fun x hx => hmem x (List.mem_cons_of_mem a hx)
      have hmask : bm &&& (1 <<< a) = (bm.testBit a).toNat * 2 ^ a := by
        rw [Nat.one_shiftLeft]; exact Nat.and_two_pow bm a
      rw [List.filterMap_cons, List.filter_cons]
      cases hb : bm.testBit a with
      | false =>
        simp only [hmask, hb, Bool.toNat_false, Nat.zero_mul, Nat.lt_irrefl, if_false,
          Bool.false_eq_true, ih ht]
      | true =>
        have hpos : 0 < 2 ^ a := Nat.pos_pow_of_pos a (by norm_num)
        simp only [hmask, hb, Bool.toNat_true, Nat.one_mul, hpos, if_true,
          from_bitmask_two_pow a ha, ih ht, List.map_cons]
  exact main (List.range 26) (fun x hx => List.mem_range.mp hx)

/-- Injectivity: `Char.ofNat` is injective on the code points `97 + off`, `off < 26`. -/
lemma char_ofNat_inj_on : ∀ a < 26, ∀ b < 26,
    Char.ofNat (97 + a) = Char.ofNat (97 + b) → a = b := by decide

/-- The companion letters are pairwise distinct for every mask. -/
lemma vec_from_bitmask_nodup (bm : Nat) : (vec_from_bitmask bm).Nodup := by
  rw [vec_from_bitmask_eq]
  apply List.Nodup.map_on
  · intro x hx y hy hf
    have hx26 : x < 26 := List.mem_range.mp (List.mem_of_mem_filter hx)
    have hy26 : y < 26 := List.mem_range.mp (List.mem_of_mem_filter hy)
    exact char_ofNat_inj_on x hx26 y hy26 hf
  · exact (List.nodup_range 26).filter _

/-- Filtering by a disjunction yields at most the two filter counts. -/
lemma filter_or_length {α : Type} (l : List α) (p q : α → Bool) :
    (l.filter (fun x => p x || q x)).length
      ≤ (l.filter p).length + (l.filter q).length := by
  induction l with
  | nil => simp
  | cons a t ih =>
    rw [List.filter_cons, List.filter_cons, List.filter_cons]
    cases hp : p a <;> cases hq : q a <;> simp [hp, hq] <;> omega

/-- A power of two has at most one set bit among the first 26. -/
lemma single_bit_filter_length (j : Nat) :
    ((List.range 26).filter (fun off => (2 ^ j).testBit off)).length ≤ 1 := by
  rcases Nat.lt_or_ge j 26 with hj | hj
  · have h : ∀ j < 26,
        ((List.range 26).filter (fun off => (2 ^ j).testBit off)).length ≤ 1 := by decide
    exact h j hj
  · have h : (List.range 26).filter (fun off => (2 ^ j).testBit off) = [] := by
      rw [List.filter_eq_nil_iff]
      intro a ha
      have ha26 : a < 26 := List.mem_range.mp ha
      rw [Nat.testBit_two_pow]
      simp
      omega
    rw [h]
    simp

/-- ORing one more single-bit mask grows the letter list by at most one. -/
lemma vec_or_shift_length (bm j : Nat) :
    (vec_from_bitmask (bm ||| (1 <<< j))).length ≤ (vec_from_bitmask bm).length + 1 := by
  rw [vec_from_bitmask_eq, vec_from_bitmask_eq, List.length_map, List.length_map]
  have hcong : (List.range 26).filter (fun off => (bm ||| 1 <<< j).testBit off)
      = (List.range 26).filter (fun off => bm.testBit off || (2 ^ j).testBit off) := by
    apply List.filter_congr
    intro x _
    rw [Nat.one_shiftLeft, Nat.testBit_lor]
  rw [hcong]
  have h1 := filter_or_length (List.range 26) (fun off => bm.testBit off)
    (fun off => (2 ^ j).testBit off)
  have h2 := single_bit_filter_length j
  omega

/-- The empty mask decodes to no letters. -/
lemma vec_from_bitmask_zero : vec_from_bitmask 0 = [] := rfl

/-- Characterization of a successful bounded character draw. -/
lemma random_range_lt_bounds (lo hi : Char) (s : Rng) (c : Char) (s1 : Rng)
    (hlo : 97 ≤ lo.toNat) (hhi : hi.toNat ≤ 123)
    (h : random_range_lt lo hi s = some (c, s1)) :
    lo.toNat ≤ c.toNat ∧ c.toNat < hi.toNat := by
  unfold random_range_lt rngNext at h
  by_cases hc : lo.toNat < hi.toNat
  · rw [if_pos hc] at h
    injection h with h1
    have hcv : Char.ofNat (lo.toNat + s.headD 0 % (hi.toNat - lo.toNat)) = c :=
      congrArg Prod.fst h1
    have hmod : s.headD 0 % (hi.toNat - lo.toNat) < hi.toNat - lo.toNat :=
      Nat.mod_lt _ (by omega)
    have hval : (Char.ofNat (lo.toNat + s.headD 0 % (hi.toNat - lo.toNat))).toNat
        = lo.toNat + s.headD 0 % (hi.toNat - lo.toNat) :=
      char_ofNat_toNat_of_le _ (by omega) (by omega)
    rw [← hcv, hval]
    omega
  · rw [if_neg hc] at h
    exact absurd h (by simp)

/-- The required-letter draw `random_range('a'..='z')` produces a lowercase
letter. -/
lemma random_range_az_bounds (s : Rng) (req : Char) (s1 : Rng)
    (h : random_range_le 'a' 'z' s = some (req, s1)) :
    97 ≤ req.toNat ∧ req.toNat ≤ 122 := by
  unfold random_range_le at h
  have hb := random_range_lt_bounds 'a' (Char.ofNat ('z'.toNat + 1)) s req s1
    (by decide) (by decide) h
  have h1 : 97 ≤ req.toNat := hb.1
  have h2 : req.toNat < 123 := hb.2
  omega

/-- A successful companion draw yields a lowercase letter distinct from the
required one. -/
lemma draw_other_bounds (req : Char) (h97 : 97 ≤ req.toNat) (h122 : req.toNat ≤ 122)
    (s : Rng) (l : Char) (s1 : Rng) (h : draw_other req s = some (l, s1)) :
    97 ≤ l.toNat ∧ l.toNat ≤ 122 ∧ l.toNat ≠ req.toNat := by
  unfold draw_other random_bool rngNext at h
  dsimp only at h
  split at h
  · have hb := random_range_lt_bounds 'a' req s.tail l s1 (by decide) (by omega) h
    have h1 : 97 ≤ l.toNat := hb.1
    have h2 : l.toNat < req.toNat := hb.2
    exact ⟨h1, by omega, by omega⟩
  · unfold random_range_le at h
    have hlov : (Char.ofNat (req.toNat + 1)).toNat = req.toNat + 1 :=
      char_ofNat_toNat_of_le _ (by omega) (by omega)
    have hb := random_range_lt_bounds (Char.ofNat (req.toNat + 1))
      (Char.ofNat ('z'.toNat + 1)) s.tail l s1 (by omega) (by decide) h
    have h1 : req.toNat + 1 ≤ l.toNat := by
      have := hb.1
      omega
    have h2 : l.toNat < 123 := hb.2
    exact ⟨by omega, by omega, by omega⟩

/-- Across the six companion draws, the letter list grows by at most one
letter per draw and the required letter's bit is never set. -/
lemma draw_others_mask (req : Char) (h97 : 97 ≤ req.toNat) (h122 : req.toNat ≤ 122) :
    ∀ (k mask : Nat) (s : Rng) (out : Nat × Rng),
      draw_others req k mask s = some out →
      (vec_from_bitmask out.1).length ≤ (vec_from_bitmask mask).length + k
    ∧ out.1.testBit (req.toNat - 97) = mask.testBit (req.toNat - 97) := by
  intro k
  induction k with
  | zero =>
    intro mask s out h
    cases Option.some.inj h
    exact ⟨by simp, rfl⟩
  | succ n ih =>
    intro mask s out h
    unfold draw_others at h
    cases hd : draw_other req s with
    | none => rw [hd] at h; exact absurd h (by simp)
    | some ls =>
      obtain ⟨l, s1⟩ := ls
      rw [hd] at h
      obtain ⟨hb1, hb2, hb3⟩ := draw_other_bounds req h97 h122 s l s1 hd
      obtain ⟨ih1, ih2⟩ := ih (mask ||| letters.bitmask l) s1 out h
      have hbml : letters.bitmask l = 1 <<< (l.toNat - 97) := rfl
      constructor
      · have hgrow := vec_or_shift_length mask (l.toNat - 97)
        rw [hbml] at ih1
        omega
      · rw [ih2, hbml, Nat.one_shiftLeft, Nat.testBit_lor, Nat.testBit_two_pow]
        have hne : ¬ (l.toNat - 97 = req.toNat - 97) := by omega
        simp [hne]

/-! ### C4: the seven-letter guarantee -/

/-- C4 counterexample: with corpus `corpusHedge` and stream `streamRepeat`,
the six companion draws produce `e, e, f, g, h, i` — the letter `'e'`
twice — so the accepted config has only FIVE `other_letters` and only six
distinct letters participate; the sampling does not guarantee
distinctness. The last conjunct computes the letter count of the union of
the required letter's mask and all companion masks: 6 bits, not 7. -/
theorem other_letters_counterexample :
    fetch corpusHedge streamRepeat 1 = .ok configHedge
  ∧ configHedge.other_letters.length = 5
  ∧ (vec_from_bitmask
      (configHedge.other_letters.foldl (fun m l => m ||| letters.bitmask l)
        (letters.bitmask configHedge.required_letter))).length = 6 := by decide

/-- C4 amended: `other_letters` always lists pairwise-distinct letters, and
whenever the generator accepts its FIRST candidate draw the companions are
at most 6 (possibly fewer, as the counterexample shows) and all differ from
`required_letter`; the claimed "exactly 6 distinct letters plus the
required letter" does not hold. -/
theorem other_letters_structure :
    (∀ (corpus : Corpus) (s : Rng) (fuel : Nat) (c : PuzzleConfig),
      fetch corpus s fuel = .ok c → c.other_letters.Nodup)
  ∧ (∀ (corpus : Corpus) (s : Rng) (c : PuzzleConfig),
      fetch corpus s 1 = .ok c →
      c.other_letters.length ≤ 6 ∧ c.required_letter ∉ c.other_letters) := by
  constructor
  · intro corpus s fuel c h
    obtain ⟨rows, rm, lm, _, _, hc⟩ := fetch_loop_ok_shape corpus fuel 0 s c h
    rw [hc]
    exact vec_from_bitmask_nodup lm
  · intro corpus s c h
    unfold fetch fetch_loop at h
    cases hr : random_range_le 'a' 'z' s with
    | none => rw [hr] at h; exact absurd h (by simp)
    | some rs =>
      obtain ⟨req, s1⟩ := rs
      rw [hr] at h
      dsimp only at h
      cases hd : draw_others req 6 0 s1 with
      | none => rw [hd] at h; exact absurd h (by simp)
      | some ms =>
        obtain ⟨lm, s2⟩ := ms
        rw [hd] at h
        dsimp only at h
        split at h
        · have hc : c = mkPuzzleConfig
              (sql_words_query corpus (lm ||| letters.bitmask req))
              (letters.bitmask req) lm := (FetchOutcome.ok.inj h).symm
          obtain ⟨h97, h122⟩ := random_range_az_bounds s req s1 hr
          obtain ⟨hlen, hbit⟩ := draw_others_mask req h97 h122 6 0 s1 (lm, s2) hd
          rw [hc]
          have hlen2 : (vec_from_bitmask lm).length ≤ (vec_from_bitmask 0).length + 6 :=
            hlen
          constructor
          · show (vec_from_bitmask lm).length ≤ 6
            have hvz : (vec_from_bitmask (0 : Nat)).length = 0 := by
              rw [vec_from_bitmask_zero]; rfl
            omega
          · show letters.from_bitmask (letters.bitmask req) ∉ vec_from_bitmask lm
            have hreq : letters.from_bitmask (letters.bitmask req) = req := by
              have hofn : Char.ofNat req.toNat = req := Char.ofNat_toNat req
              calc letters.from_bitmask (letters.bitmask req)
                  = letters.from_bitmask (letters.bitmask (Char.ofNat req.toNat)) := by
                    rw [hofn]
                _ = Char.ofNat req.toNat :=
                    from_bitmask_bitmask_of req.toNat h97 (by omega)
                _ = req := hofn
            rw [hreq, vec_from_bitmask_eq]
            intro hmem
            obtain ⟨off, hoff, heq⟩ := List.mem_map.mp hmem
            have hoff26 : off < 26 := List.mem_range.mp (List.mem_of_mem_filter hoff)
            have hbitoff : lm.testBit off = true := (List.mem_filter.mp hoff).2
            have htn : (Char.ofNat (97 + off)).toNat = 97 + off :=
              char_ofNat_toNat_of_le _ (by omega) (by omega)
            have hreqoff : 97 + off = req.toNat := by
              have := congrArg Char.toNat heq
              rw [htn] at this
              exact this
            have hz : lm.testBit (req.toNat - 97) = false := by
              rw [hbit]
              exact Nat.zero_testBit _
            rw [show off = req.toNat - 97 by omega] at hbitoff
            rw [hbitoff] at hz
            exact Bool.noConfusion hz
        · exact absurd h (by simp [fetch_loop])

/-- Witness for the amended C4 at a concrete accepted draw with six distinct
companions. -/
theorem other_letters_structure_witness :
    fetch corpusEdge streamDistinct 1 = .ok configEdge
  ∧ configEdge.other_letters.Nodup
  ∧ (configEdge.other_letters.length ≤ 6
    ∧ configEdge.required_letter ∉ configEdge.other_letters) :=
  ⟨by decide,
   other_letters_structure.1 corpusEdge streamDistinct 1 configEdge (by decide),
   other_letters_structure.2 corpusEdge streamDistinct configEdge (by decide)⟩
